import Mathlib

/-!
Verification of the MSPAF forum-thread parser (gbpub.py, snop.py, vbullet.py).

The Python sources are shallowly embedded: mutable dicts become association
lists with Python dict update semantics, Python list indexing becomes an
Option-valued lookup over Lean lists, strings become lists of characters,
and raised exceptions become error values of an explicit error type.
All definitions are executable and structurally recursive so that concrete
runs of the embedded code can be checked by the kernel.
-/

/-! ## Generic helpers: Python-style primitives -/

/-- Python dict membership test for an association list keyed by Nat. -/
def pyDictHasKey (d : List (Nat × α)) (k : Nat) : Bool :=
  d.any (fun kv => kv.1 == k)

/-- Python dict read: value of the first (unique) entry with the given key. -/
def pyDictGet (d : List (Nat × α)) (k : Nat) : Option α :=
  (d.find? (fun kv => kv.1 == k)).map (fun kv => kv.2)

/-- Python dict assignment d[k] = v: replace the value in place if the key
exists, otherwise append a new entry. -/
def pyDictSet (d : List (Nat × α)) (k : Nat) (v : α) : List (Nat × α) :=
  if pyDictHasKey d k then
    d.map (fun kv => if kv.1 == k then (k, v) else kv)
  else
    d ++ [(k, v)]

/-- Python list indexing l[i] with negative-offset semantics: a negative
index counts from the end; any out-of-range access is an IndexError,
modelled as none. -/
def pyIndex (l : List α) (i : Int) : Option α :=
  if 0 ≤ i then l.get? i.toNat
  else if 0 ≤ (l.length : Int) + i then l.get? ((l.length : Int) + i).toNat
  else none

/-- Substring containment, Python "needle in haystack". -/
def containsSub (needle : List Char) : List Char → Bool
  | [] => needle.isEmpty
  | c :: rest => needle.isPrefixOf (c :: rest) || containsSub needle rest

/-- ASCII lowercase of a character list, Python str.lower on ASCII data. -/
def lowerL (s : List Char) : List Char := s.map Char.toLower

/-! ## C1 — Author.add_post (snop.py line 58, vbullet.py line 56)

The Author class subclasses dict; add_post executes the plain dict
assignment self[post.number] = post. Posts are represented abstractly by
a value of an arbitrary type. -/

/-- Author.add_post from snop.py/vbullet.py: the body is exactly the dict
assignment self[post.number] = post. It cannot fail. -/
def author_add_post (d : List (Nat × α)) (number : Nat) (post : α) :
    List (Nat × α) :=
  pyDictSet d number post

/-! ## C4 — Thread.get_post (gbpub.py lines 73-86)

validate_post_number is the identity on integer arguments, so get_post on
an integer argument reduces to the two-branch body shown in the source. -/

/-- Thread.get_post from gbpub.py: a non-positive argument indexes the
post list directly (Python negative indexing), a positive argument n
fetches element n-1. An out-of-range access is an IndexError (none). -/
def thread_get_post (posts : List α) (n : Int) : Option α :=
  if n ≤ 0 then pyIndex posts n else pyIndex posts (n - 1)

/-! ## C6 — Thread author ranking (gbpub.py lines 50-54 and 114-121)

The ranking is built by iterating the _author_list dict and stable-sorting
the (author, post count) pairs by descending count. gbpub.py runs on
Python 2 (it imports urllib2), where dict iteration order is arbitrary,
so the iteration order of the items is a parameter of the model. The sort
models Python sorted(key=count, reverse=True), which keeps elements with
equal keys in their input order. -/

/-- Stable descending insertion: x is placed before the first element with
a strictly smaller count, after all earlier elements with a count greater
than or equal to its own. -/
def insertDesc (x : String × Nat) : List (String × Nat) → List (String × Nat)
  | [] => [x]
  | y :: ys => if y.2 ≤ x.2 then x :: y :: ys else y :: insertDesc x ys

/-- Stable sort by descending count, Python sorted(key=count, reverse=True). -/
def sortDescByCount (l : List (String × Nat)) : List (String × Nat) :=
  l.foldr insertDesc []

/-- Thread.get_ranked_authors_list from gbpub.py, as a function of the
(author, post count) pairs in dict iteration order: sort by descending
count (stable), keep the names, drop the excluded ones. -/
def get_ranked_authors_list (dictItems : List (String × Nat))
    (excluding : List String) : List String :=
  ((sortDescByCount dictItems).map Prod.fst).filter
    (fun a => !(excluding.contains a))

/-! ## Dict lemmas used for C1 -/

theorem pyDictGet_map_replace (d : List (Nat × α)) (k : Nat) (v : α)
    (h : pyDictHasKey d k = true) :
    pyDictGet (d.map (fun kv => if kv.1 == k then (k, v) else kv)) k
      = some v := by
  induction d with
  | nil => simp [pyDictHasKey] at h
  | cons hd tl ih =>
    by_cases hk : hd.1 = k
    · simp [pyDictGet, List.find?_cons, hk]
    · have h' : pyDictHasKey tl k = true := by
        simpa [pyDictHasKey, hk] using h
      have := ih h'
      simpa [pyDictGet, List.find?_cons, hk] using this

theorem pyDictGet_append_new (d : List (Nat × α)) (k : Nat) (v : α)
    (h : pyDictHasKey d k = false) :
    pyDictGet (d ++ [(k, v)]) k = some v := by
  induction d with
  | nil => simp [pyDictGet]
  | cons hd tl ih =>
    unfold pyDictHasKey at h
    rw [List.any_cons] at h
    rcases Bool.or_eq_false_iff.mp h with ⟨hk0, htl⟩
    have hk : (hd.1 == k) = false := hk0
    have h' : pyDictHasKey tl k = false := htl
    have := ih h'
    simpa [pyDictGet, List.find?_cons, hk] using this

theorem pyDictGet_set (d : List (Nat × α)) (k : Nat) (v : α) :
    pyDictGet (pyDictSet d k v) k = some v := by
  unfold pyDictSet
  by_cases h : pyDictHasKey d k = true
  · simpa [h] using pyDictGet_map_replace d k v h
  · have h' : pyDictHasKey d k = false := by simpa using h
    simpa [h'] using pyDictGet_append_new d k v h'

/-- C1 counterexample: in the code, registering a second post with the same
post number for the same author does not fail and does not leave the
earlier post in place — the dict assignment overwrites it. At the concrete
input (post 10 then post 20, both numbered 1), the resulting author dict
holds only the second post and the earlier value is gone. -/
theorem snop_add_post_cex :
    author_add_post (author_add_post ([] : List (Nat × Nat)) 1 10) 1 20
        = [(1, 20)]
      ∧ pyDictGet (author_add_post (author_add_post ([] : List (Nat × Nat))
            1 10) 1 20) 1 ≠ some 10 := by
  decide

/-- C1 (amended): Author.add_post never fails; it stores the post under its
number and silently overwrites any earlier post carrying the same number,
so a lookup of that number afterwards returns the newly added post. -/
theorem snop_add_post_overwrites (d : List (Nat × α)) (number : Nat)
    (post : α) :
    pyDictGet (author_add_post d number post) number = some post :=
  pyDictGet_set d number post

/-! ## C4 — get_post indexing theorem -/

theorem getElem?_zero_eq_head? (l : List α) : l[0]? = l.head? := by
  cases l <;> simp

/-- C4: for a thread with posts numbered 1..N in source order, get_post 0
and get_post 1 both return the first post; a positive n with n ≤ N returns
the nth post; a negative offset -n with n ≤ N returns the nth-from-last
post; and the out-of-range index N+1 is an IndexError (none). -/
theorem gbpub_get_post_spec (posts : List Nat) (N : Nat)
    (hlen : posts.length = N) (hN : 1 ≤ N) :
    thread_get_post posts 0 = posts.head?
      ∧ thread_get_post posts 1 = posts.head?
      ∧ (∀ n : Nat, 1 ≤ n → n ≤ N →
          thread_get_post posts (n : Int) = posts.get? (n - 1))
      ∧ (∀ n : Nat, 1 ≤ n → n ≤ N →
          thread_get_post posts (-(n : Int)) = posts.get? (N - n))
      ∧ thread_get_post posts ((N : Int) + 1) = none := by
  refine ⟨?_, ?_, ?_, ?_, ?_⟩
  · simp [thread_get_post, pyIndex, getElem?_zero_eq_head?]
  · have h1 : ¬ ((1 : Int) ≤ 0) := by omega
    simp [thread_get_post, pyIndex, h1, getElem?_zero_eq_head?]
  · intro n h1 h2
    have hn0 : ¬ ((n : Int) ≤ 0) := by omega
    have hpos : (0 : Int) ≤ (n : Int) - 1 := by omega
    have htn : ((n : Int) - 1).toNat = n - 1 := by omega
    simp [thread_get_post, pyIndex, hn0, hpos, htn]
  · intro n h1 h2
    have hn0 : (-(n : Int)) ≤ 0 := by omega
    have hneg : ¬ ((0 : Int) ≤ -(n : Int)) := by omega
    have hin : (0 : Int) ≤ (posts.length : Int) + -(n : Int) := by omega
    have htn : ((posts.length : Int) + -(n : Int)).toNat = N - n := by omega
    simp [thread_get_post, pyIndex, hn0, hneg, hin, htn]
  · have h1 : ¬ (((N : Int) + 1) ≤ 0) := by omega
    have hpos : (0 : Int) ≤ (N : Int) + 1 - 1 := by omega
    have htn : ((N : Int) + 1 - 1).toNat = N := by omega
    simp [thread_get_post, pyIndex, h1, hpos, htn]
    omega

/-- C4 witness: the theorem applied at the concrete thread [10, 20, 30]. -/
theorem gbpub_get_post_spec_witness :
    thread_get_post [10, 20, 30] 0 = some 10
      ∧ thread_get_post [10, 20, 30] (-1) = [10, 20, 30].get? 2
      ∧ thread_get_post [10, 20, 30] 4 = none := by
  have h := gbpub_get_post_spec [10, 20, 30] 3 (by decide) (by decide)
  refine ⟨?_, ?_, ?_⟩
  · simpa using h.1
  · simpa using h.2.2.2.1 1 (by decide) (by decide)
  · simpa using h.2.2.2.2

/-! ## C6 — ranking depends on the Python 2 dict iteration order -/

/-- C6: the ranking pipeline of gbpub.py, evaluated at the same three
authors (post counts 5, 5, 3) presented in two different dict iteration
orders, emits the tied authors in the order the dict yields them. Under
Python 2 (gbpub.py imports urllib2) that iteration order is arbitrary, so
a thread in which author a appears before author b can still be ranked
with b first, contradicting the claimed first-appearance tie-breaking. -/
theorem gbpub_rank_depends_on_dict_order :
    get_ranked_authors_list [("a", 5), ("b", 5), ("c", 3)] []
        = ["a", "b", "c"]
      ∧ get_ranked_authors_list [("b", 5), ("a", 5), ("c", 3)] []
        = ["b", "a", "c"] := by
  exact ⟨rfl, rfl⟩

/-! ## C2 — snop.py datetime split (lines 284-286)

The non-relative branch of Post.__init__ splits the datetime text on the
exact separator ", " (Python str.split), joins all parts but the last back
together with ", ", and keeps the last part alone, which amounts to one
split at the last occurrence of the separator. splitCS models Python
split(", ") by a left-to-right scan; joinCS models ", ".join. -/

/-- Python split(", ") on a character list: scan left to right, cut at each
non-overlapping occurrence of the two-character separator. -/
def splitCS : List Char → List (List Char)
  | [] => [[]]
  | [c] => [[c]]
  | c :: c2 :: rest =>
    if c = ',' ∧ c2 = ' ' then [] :: splitCS rest
    else
      match splitCS (c2 :: rest) with
      | [] => [[c]]
      | p :: ps => (c :: p) :: ps

/-- Python ", ".join on a list of character lists. -/
def joinCS : List (List Char) → List Char
  | [] => []
  | [p] => p
  | p :: q :: ps => p ++ ',' :: ' ' :: joinCS (q :: ps)

/-- Whether the separator ", " occurs anywhere in the list. -/
def hasSepCS : List Char → Bool
  | [] => false
  | [_] => false
  | c :: c2 :: rest => if c = ',' ∧ c2 = ' ' then true else hasSepCS (c2 :: rest)

theorem twoStepInduction {P : List Char → Prop} (h0 : P []) (h1 : ∀ c, P [c])
    (h2 : ∀ c c2 rest, P rest → P (c2 :: rest) → P (c :: c2 :: rest)) :
    ∀ s, P s := by
  have key : ∀ s, P s ∧ ∀ c, P (c :: s) := by
    intro s
    induction s with
    | nil => exact ⟨h0, h1⟩
    | cons c2 rest ih => exact ⟨ih.2 c2, fun c => h2 c c2 rest ih.1 (ih.2 c2)⟩
  exact fun s => (key s).1

theorem splitCS_sep (t : List Char) :
    splitCS (',' :: ' ' :: t) = [] :: splitCS t := rfl

theorem splitCS_cons_ne (c c2 : Char) (rest : List Char)
    (h : ¬ (c = ',' ∧ c2 = ' ')) (p : List Char) (ps : List (List Char))
    (hsp : splitCS (c2 :: rest) = p :: ps) :
    splitCS (c :: c2 :: rest) = (c :: p) :: ps := by
  rw [splitCS, if_neg h, hsp]

theorem hasSepCS_cons_ne (c c2 : Char) (rest : List Char)
    (h : ¬ (c = ',' ∧ c2 = ' ')) :
    hasSepCS (c :: c2 :: rest) = hasSepCS (c2 :: rest) := by
  rw [hasSepCS, if_neg h]

theorem joinCS_nil_cons (p : List Char) (ps : List (List Char)) :
    joinCS ([] :: p :: ps) = ',' :: ' ' :: joinCS (p :: ps) := rfl

theorem splitCS_ne_nil : ∀ s : List Char, splitCS s ≠ [] := by
  refine twoStepInduction (by simp [splitCS]) (fun c => by simp [splitCS]) ?_
  intro c c2 rest _ ih2
  by_cases h : c = ',' ∧ c2 = ' '
  · obtain ⟨hc, hc2⟩ := h
    subst hc; subst hc2
    rw [splitCS_sep]
    simp
  · cases hsp : splitCS (c2 :: rest) with
    | nil => exact absurd hsp ih2
    | cons p ps => simp [splitCS_cons_ne c c2 rest h p ps hsp]

theorem joinCS_cons_cons (c : Char) (p : List Char) (ps : List (List Char)) :
    joinCS ((c :: p) :: ps) = c :: joinCS (p :: ps) := by
  cases ps <;> simp [joinCS]

theorem joinCS_splitCS : ∀ s : List Char, joinCS (splitCS s) = s := by
  refine twoStepInduction (by simp [splitCS, joinCS])
    (fun c => by simp [splitCS, joinCS]) ?_
  intro c c2 rest ih1 ih2
  by_cases h : c = ',' ∧ c2 = ' '
  · obtain ⟨hc, hc2⟩ := h
    subst hc; subst hc2
    rw [splitCS_sep]
    cases hsp : splitCS rest with
    | nil => exact absurd hsp (splitCS_ne_nil rest)
    | cons p ps =>
      rw [hsp] at ih1
      rw [joinCS_nil_cons, ih1]
  · cases hsp : splitCS (c2 :: rest) with
    | nil => exact absurd hsp (splitCS_ne_nil _)
    | cons p ps =>
      rw [splitCS_cons_ne c c2 rest h p ps hsp, joinCS_cons_cons]
      rw [hsp] at ih2
      rw [ih2]

theorem splitCS_of_no_sep : ∀ s : List Char, hasSepCS s = false → splitCS s = [s] := by
  refine twoStepInduction (by simp [splitCS]) (fun c => by simp [splitCS]) ?_
  intro c c2 rest _ ih2 h
  have hns : ¬ (c = ',' ∧ c2 = ' ') := by
    intro hcc
    rw [hasSepCS, if_pos hcc] at h
    exact absurd h (by decide)
  have h2 : hasSepCS (c2 :: rest) = false := by
    rw [hasSepCS_cons_ne c c2 rest hns] at h
    exact h
  exact splitCS_cons_ne c c2 rest hns (c2 :: rest) [] (ih2 h2)

theorem splitCS_append_sep : ∀ d t : List Char, hasSepCS t = false →
    splitCS (d ++ ',' :: ' ' :: t) = splitCS d ++ [t] := by
  intro d
  induction d using twoStepInduction with
  | h0 =>
    intro t h
    rw [List.nil_append, splitCS_sep, splitCS_of_no_sep t h]
    rfl
  | h1 c =>
    intro t h
    have hns : ¬ (c = ',' ∧ (',' : Char) = ' ') := by simp
    have hmid : splitCS (',' :: ' ' :: t) = [] :: [t] := by
      rw [splitCS_sep, splitCS_of_no_sep t h]
    show splitCS (c :: ',' :: ' ' :: t) = [[c]] ++ [t]
    rw [splitCS_cons_ne c ',' (' ' :: t) hns [] [t] hmid]
    rfl
  | h2 c c2 rest ih1 ih2 =>
    intro t h
    by_cases hcc : c = ',' ∧ c2 = ' '
    · obtain ⟨hc, hc2⟩ := hcc
      subst hc; subst hc2
      show splitCS (',' :: ' ' :: (rest ++ ',' :: ' ' :: t)) = _
      rw [splitCS_sep, ih1 t h, splitCS_sep]
      rfl
    · show splitCS (c :: c2 :: (rest ++ ',' :: ' ' :: t)) = _
      have hstep : c2 :: (rest ++ ',' :: ' ' :: t)
          = (c2 :: rest) ++ ',' :: ' ' :: t := rfl
      cases hsp : splitCS (c2 :: rest) with
      | nil => exact absurd hsp (splitCS_ne_nil _)
      | cons p ps =>
        have hmid : splitCS (c2 :: (rest ++ ',' :: ' ' :: t))
            = p :: (ps ++ [t]) := by
          rw [hstep, ih2 t h, hsp]
          rfl
        rw [splitCS_cons_ne c c2 (rest ++ ',' :: ' ' :: t) hcc p (ps ++ [t]) hmid]
        rw [splitCS_cons_ne c c2 rest hcc p ps hsp]
        rfl

/-- snop.py lines 284-286: datetime_list = datetime_string.split(", ");
date_string = ", ".join(datetime_list[:-1]); time_string =
datetime_list[-1]. -/
def snop_split_datetime (s : List Char) : List Char × List Char :=
  (joinCS (splitCS s).dropLast, (splitCS s).getLastD [])

/-- C2: for every non-relative timestamp text of the form
date ++ ", " ++ time where the trailing component contains no further
", ", the resolver's split cuts at the last occurrence of the separator:
the date portion is everything before it (even when it itself contains
", ") and the time portion is the trailing component. -/
theorem snop_split_at_last_sep (d t : List Char) (h : hasSepCS t = false) :
    snop_split_datetime (d ++ ',' :: ' ' :: t) = (d, t) := by
  unfold snop_split_datetime
  rw [splitCS_append_sep d t h, List.dropLast_concat, joinCS_splitCS]
  have hlast : (splitCS d ++ [t]).getLastD [] = t := by
    simp [List.getLastD_concat]
  rw [hlast]

/-- C2 witness: the spec's own example, a date containing embedded ", ". -/
theorem snop_split_at_last_sep_witness :
    hasSepCS ("10:15 PM".toList) = false
      ∧ snop_split_datetime ("Monday, June 2, 2014, 10:15 PM".toList)
        = ("Monday, June 2, 2014".toList, "10:15 PM".toList) := by
  refine ⟨by decide, ?_⟩
  have heq : "Monday, June 2, 2014, 10:15 PM".toList
      = "Monday, June 2, 2014".toList ++ ',' :: ' ' :: "10:15 PM".toList := by
    decide
  rw [heq]
  exact snop_split_at_last_sep _ _ (by decide)

/-! ## Timestamp resolver — snop.py Post.__init__ lines 254-310

Datetimes are modelled in minutes since an epoch: datetime values are Int,
timedelta(minutes=n) is n, hours are 60, days 1440, weeks 10080 minutes.
date() is floor division by 1440 and time() the remainder. Python's
datetime.timedelta accepts no years keyword, so the years branch of the
source raises TypeError the moment timedelta(years=units) is evaluated;
the library strptime calls are a parameter of the model (any function from
text and format to an optional parse result), since the resolver's control
flow only depends on their success or failure. -/

/-- Python split(" "): cut at every single space character. -/
def splitSpace : List Char → List (List Char)
  | [] => [[]]
  | c :: rest =>
    if c = ' ' then [] :: splitSpace rest
    else
      match splitSpace rest with
      | [] => [[c]]
      | p :: ps => (c :: p) :: ps

/-- Digit-string value, none unless the list is nonempty and all digits. -/
def digitsValAux (acc : Nat) : List Char → Option Nat
  | [] => some acc
  | c :: rest =>
    if c.isDigit then digitsValAux (acc * 10 + (c.toNat - 48)) rest else none

def digitsVal (s : List Char) : Option Nat :=
  if s.isEmpty then none else digitsValAux 0 s

/-- Python whitespace test for int() stripping. -/
def isPySpace (c : Char) : Bool :=
  c = ' ' || c = '\t' || c = '\n' || c = '\r'

/-- Python int(str): strip surrounding whitespace, allow one sign, then
require a nonempty run of digits; anything else is a ValueError (none). -/
def pyInt (s : List Char) : Option Int :=
  match ((s.dropWhile isPySpace).reverse.dropWhile isPySpace).reverse with
  | '-' :: ds => (digitsVal ds).map (fun n => -(n : Int))
  | '+' :: ds => (digitsVal ds).map (fun n => (n : Int))
  | ds => (digitsVal ds).map (fun n => (n : Int))

/-- Python exceptions that the embedded resolver can raise. -/
inductive PyErr where
  | typeError
  | valueError (msg : List Char)
  | indexError
deriving DecidableEq

/-- The resolved timestamp state of a Post: each of date and time is either
a value or the unresolved sentinel None. -/
structure TSResult where
  date : Option Int
  time : Option Int
deriving DecidableEq

/-- Split a datetime value into the (date, time-of-day) pair, both present. -/
def dtParts (x : Int) : TSResult :=
  ⟨some (x.fdiv 1440), some (x.fmod 1440)⟩

/-- ASCII apostrophe, kept out of string literals. -/
def sqChar : Char := Char.ofNat 39

/-- The exact message of snop.py lines 297-298. -/
def dateFormatErrMsg (fmt ds : List Char) : List Char :=
  "Date format ".toList ++ [sqChar] ++ fmt ++ [sqChar]
    ++ " does not match string ".toList ++ [sqChar] ++ ds ++ [sqChar]
    ++ ".".toList

/-- The exact message of snop.py lines 307-308. -/
def timeFormatErrMsg (fmt ts : List Char) : List Char :=
  "Time format ".toList ++ [sqChar] ++ fmt ++ [sqChar]
    ++ " does not match string ".toList ++ [sqChar] ++ ts ++ [sqChar]
    ++ ".".toList

/-- snop.py lines 288-300, the date portion of the non-relative branch:
a date text containing "today" is the current date, one containing
"yesterday" is the current date minus one day, otherwise a supplied format
spec is tried and its failure raises ValueError naming the format and the
text, and with no format spec the date is the unresolved sentinel None. -/
def snop_resolve_date (strpD : List Char → List Char → Option Int)
    (today : Int) (date_string : List Char)
    (date_format : Option (List Char)) : Except PyErr (Option Int) :=
  if containsSub "today".toList date_string then .ok (some today)
  else if containsSub "yesterday".toList date_string then .ok (some (today - 1))
  else
    match date_format with
    | some fmt =>
      match strpD date_string fmt with
      | some d => .ok (some d)
      | none => .error (.valueError (dateFormatErrMsg fmt date_string))
    | none => .ok none

/-- snop.py lines 302-310, the time portion of the non-relative branch. -/
def snop_resolve_time (strpT : List Char → List Char → Option Int)
    (time_string : List Char) (time_format : Option (List Char)) :
    Except PyErr (Option Int) :=
  match time_format with
  | some fmt =>
    match strpT time_string fmt with
    | some t => .ok (some t)
    | none => .error (.valueError (timeFormatErrMsg fmt time_string))
  | none => .ok none

/-- snop.py lines 254-310, the whole date/time resolution of Post.__init__:
a text containing "ago" takes the relative branch (second whitespace token
is the unit word, first is the count; unit keywords tried in the order
minute, hour, day, week, year; the year branch evaluates
timedelta(years=units), a TypeError, since Python timedelta has no years
argument; no keyword match falls back to now). Any other text is split at
the last ", " into date and time portions which resolve independently. -/
def snop_resolve (strpD strpT : List Char → List Char → Option Int)
    (now : Int) (s : List Char)
    (date_format time_format : Option (List Char)) : Except PyErr TSResult :=
  if containsSub "ago".toList s then
    let date_data := splitSpace s
    match date_data.get? 1 with
    | none => .error .indexError
    | some w =>
      match pyInt (date_data.getD 0 []) with
      | none => .error (.valueError "invalid literal for int".toList)
      | some units =>
        let unit_type := lowerL w
        if containsSub "minute".toList unit_type then
          .ok (dtParts (now - units))
        else if containsSub "hour".toList unit_type then
          .ok (dtParts (now - 60 * units))
        else if containsSub "day".toList unit_type then
          .ok (dtParts (now - 1440 * units))
        else if containsSub "week".toList unit_type then
          .ok (dtParts (now - 10080 * units))
        else if containsSub "year".toList unit_type then
          .error .typeError
        else
          .ok (dtParts now)
  else
    match snop_resolve_date strpD (now.fdiv 1440)
        (snop_split_datetime s).1 date_format with
    | .error e => .error e
    | .ok dv =>
      match snop_resolve_time strpT (snop_split_datetime s).2 time_format with
      | .error e => .error e
      | .ok tv => .ok ⟨dv, tv⟩

/-- C5: the relative branch resolves "5 minutes ago" at simulated now T to
T minus five minutes with date and time both present, and an unmatched
unit word falls back to exactly now — but the year keyword branch, reached
in the documented priority order, raises TypeError instead of resolving,
because timedelta has no years argument. The claim that every matched unit
resolves to now minus N of that unit therefore fails at "3 years ago". -/
theorem snop_relative_resolution (now : Int)
    (strpD strpT : List Char → List Char → Option Int)
    (dfmt tfmt : Option (List Char)) :
    snop_resolve strpD strpT now ("5 minutes ago".toList) dfmt tfmt
        = .ok (dtParts (now - 5))
      ∧ snop_resolve strpD strpT now ("3 years ago".toList) dfmt tfmt
        = .error .typeError
      ∧ snop_resolve strpD strpT now ("5 moments ago".toList) dfmt tfmt
        = .ok (dtParts now) := by
  exact ⟨rfl, rfl, rfl⟩

/-- C7: on the date portion, the literal "today" resolves to the current
date and the literal "yesterday" to the current date minus one day, both
regardless of any format spec; any other date text under a format spec
that fails to parse it raises ValueError carrying exactly the message that
names the format string and the offending text; and with no format spec
the date is the unresolved sentinel (the non-error value ok none, distinct
by construction from any thrown error). -/
theorem snop_date_portion_spec
    (strpD : List Char → List Char → Option Int) (today : Int)
    (ds fmt : List Char)
    (h1 : containsSub "today".toList ds = false)
    (h2 : containsSub "yesterday".toList ds = false)
    (h3 : strpD ds fmt = none) :
    snop_resolve_date strpD today ("today".toList) (some fmt)
        = .ok (some today)
      ∧ snop_resolve_date strpD today ("yesterday".toList) (some fmt)
        = .ok (some (today - 1))
      ∧ snop_resolve_date strpD today ds (some fmt)
        = .error (.valueError (dateFormatErrMsg fmt ds))
      ∧ snop_resolve_date strpD today ds none = .ok none := by
  refine ⟨rfl, rfl, ?_, ?_⟩
  · simp only [snop_resolve_date, h1, h2, h3]
    simp
  · simp only [snop_resolve_date, h1, h2]
    simp

/-- C7 witness: a concrete date text and failing format spec. -/
theorem snop_date_portion_spec_witness :
    snop_resolve_date (fun _ _ => none) 10 ("June 99".toList)
        (some ("%d %b".toList))
        = .error (.valueError (dateFormatErrMsg ("%d %b".toList)
            ("June 99".toList)))
      ∧ snop_resolve_date (fun _ _ => none) 10 ("June 99".toList) none
        = .ok none := by
  have h := snop_date_portion_spec (fun _ _ => none) 10 ("June 99".toList)
    ("%d %b".toList) (by decide) (by decide) rfl
  exact ⟨h.2.2.1, h.2.2.2⟩

/-! ## C3 — Post.get_clean_content (snop.py lines 314-367, vbullet.py
lines 272-299)

In both files the method is unfinished: the snop.py spoiler branches
mutate only a local deep copy of the content tag, every other branch
(quotes, ignoretags, regex, trim) is a bare pass stub, and the body has no
return statement, so the Python call returns None for every input — it
never produces the cleaned text the claim describes. The content subtree
is modelled as a tree of text and element nodes; the function's observable
behaviour is the constant None. -/

/-- A content subtree: text nodes and elements with a tag name, a class
string and children (attributes beyond the class are not modelled). -/
inductive CNode where
  | text (t : List Char)
  | elem (tag : List Char) (cls : List Char) (children : List CNode)

/-- Post.get_clean_content from snop.py/vbullet.py: no branch returns, so
the result is Python None for every content subtree and spoiler policy. -/
def snop_get_clean_content (_content : CNode) (_spoilers : Bool) :
    Option (List Char) :=
  none

/-- A well-formed post content subtree holding one spoiler block beside
ordinary text. -/
def spoilerExample : CNode :=
  .elem "blockquote".toList "restore".toList
    [.elem "div".toList "".toList
      [.elem "div".toList "spoiler".toList [.text "hidden text".toList]],
     .text "visible text".toList]

/-- C3: evaluating get_clean_content on a post content subtree containing
a spoiler block returns None under both spoiler policies — the code never
returns the cleaned text the claim describes, because its cleaning
branches are stubs and the body has no return statement. -/
theorem snop_get_clean_content_returns_none :
    snop_get_clean_content spoilerExample true = none
      ∧ snop_get_clean_content spoilerExample false = none :=
  ⟨rfl, rfl⟩

/-! ## C10 — Thread.find_post_numbers_by_author (gbpub.py lines 100-112)

Python lists are mutable references, so the claim about mutating the
returned list needs an explicit heap: cells hold lists of post numbers and
addresses index them. The source returns self._author_list[author][:], a
slice that allocates a fresh cell holding a copy of the stored contents. -/

structure PyHeap where
  cells : List (List Nat)

/-- Allocate a fresh cell, returning the new heap and the cell address. -/
def heapAlloc (h : PyHeap) (v : List Nat) : PyHeap × Nat :=
  (⟨h.cells ++ [v]⟩, h.cells.length)

/-- Read a cell. -/
def heapRead (h : PyHeap) (a : Nat) : List Nat :=
  h.cells.getD a []

/-- In-place mutation of the list stored in a cell. -/
def heapWrite (h : PyHeap) (a : Nat) (v : List Nat) : PyHeap :=
  ⟨h.cells.set a v⟩

/-- The thread's author index: lowercased author name to the address of
the stored list of that author's post numbers. -/
structure ThreadAuthors where
  authorList : List (String × Nat)

def strLower (s : String) : String := ⟨lowerL s.toList⟩

def lookupAddr (t : ThreadAuthors) (name : String) : Option Nat :=
  (t.authorList.find? (fun kv => kv.1 == name)).map (fun kv => kv.2)

/-- Thread.find_post_numbers_by_author from gbpub.py: lowercase the name;
if it is in the author dict, return a fresh slice copy of the stored
post-number list, otherwise return a fresh empty list. -/
def find_post_numbers_by_author (h : PyHeap) (t : ThreadAuthors)
    (author : String) : PyHeap × Nat :=
  match lookupAddr t (strLower author) with
  | some addr => heapAlloc h (heapRead h addr)
  | none => heapAlloc h []

theorem getD_concat_length (l : List (List Nat)) (v d : List Nat) :
    (l ++ [v]).getD l.length d = v := by
  simp [List.getD]

/-- C10: find_post_numbers_by_author returns a fresh copy of the stored
post-number list, so overwriting the returned cell with arbitrary contents
leaves the author index intact: a second call with the same name still
returns the post numbers the first call returned. The hypothesis says the
author index only holds addresses of allocated cells. -/
theorem gbpub_find_post_numbers_copy (h : PyHeap) (t : ThreadAuthors)
    (name : String) (junk : List Nat)
    (hwf : ∀ kv ∈ t.authorList, kv.2 < h.cells.length) :
    (let r1 := find_post_numbers_by_author h t name
     let r2 := find_post_numbers_by_author (heapWrite r1.1 r1.2 junk) t name
     heapRead r2.1 r2.2 = heapRead r1.1 r1.2) := by
  cases hl : lookupAddr t (strLower name) with
  | none =>
    simp only [find_post_numbers_by_author, hl, heapAlloc, heapWrite, heapRead]
    rw [getD_concat_length, getD_concat_length]
  | some a =>
    have ha : a < h.cells.length := by
      obtain ⟨kv, hkv, hkva⟩ := Option.map_eq_some'.mp hl
      have := hwf kv (List.mem_of_find?_eq_some hkv)
      omega
    simp only [find_post_numbers_by_author, hl, heapAlloc, heapWrite, heapRead]
    rw [getD_concat_length, getD_concat_length]
    simp [List.getD]
    rw [List.getElem?_append_left ha]

/-- C10 witness: one author, one stored list; mutate the returned copy and
look the author up again. -/
theorem gbpub_find_post_numbers_copy_witness :
    (let r1 := find_post_numbers_by_author ⟨[[1, 2, 3]]⟩ ⟨[("alice", 0)]⟩
       "Alice"
     let r2 := find_post_numbers_by_author (heapWrite r1.1 r1.2 [99])
       ⟨[("alice", 0)]⟩ "Alice"
     heapRead r2.1 r2.2 = heapRead r1.1 r1.2)
      ∧ heapRead (find_post_numbers_by_author ⟨[[1, 2, 3]]⟩
          ⟨[("alice", 0)]⟩ "Alice").1
          (find_post_numbers_by_author ⟨[[1, 2, 3]]⟩
          ⟨[("alice", 0)]⟩ "Alice").2 = [1, 2, 3] :=
  ⟨gbpub_find_post_numbers_copy ⟨[[1, 2, 3]]⟩ ⟨[("alice", 0)]⟩ "Alice" [99]
      (by decide),
    by decide⟩

/-! ## C8 — thread reference parsing (gbpub.py lines 180-188)

The __main__ block accepts either a bare all-digit argument (regex
^[\d]+$ under re.match, whose $ also matches just before one trailing
newline) or a thread URL matched by
https?://www.mspaforums.com/(?:show|print)thread.php?(?:t=)?([\d]+),
anchored only at the start; anything else raises ValueError (the spec's
InvalidReferenceError), modelled as none. The regexes are modelled by
the equivalent deterministic matchers below, including the backtracking
over the optional t= group. -/

/-- Prefix test that recurses on the pattern, so that an application with
a concrete pattern reduces even when the tail of the text is symbolic. -/
def isPrefixL : List Char → List Char → Bool
  | [], _ => true
  | a :: as, s =>
    match s with
    | [] => false
    | b :: bs => (a == b) && isPrefixL as bs

/-- Match a literal piece at the front and return the remainder. -/
def stripQ (pre s : List Char) : Option (List Char) :=
  if isPrefixL pre s then some (s.drop pre.length) else none

/-- Greedy [\d]+ capture: the maximal leading digit run, if nonempty. -/
def takeDigits1 (s : List Char) : Option (List Char) :=
  let ds := s.takeWhile Char.isDigit
  if ds.isEmpty then none else some ds

/-- re.match of the thread URL pattern, returning the captured digits. -/
def urlMatch (s : List Char) : Option (List Char) :=
  match (stripQ "https://www.mspaforums.com/".toList s).orElse
      (fun _ => stripQ "http://www.mspaforums.com/".toList s) with
  | none => none
  | some r1 =>
    match (stripQ "showthread.php?".toList r1).orElse
        (fun _ => stripQ "printthread.php?".toList r1) with
    | none => none
    | some r2 =>
      match stripQ "t=".toList r2 with
      | some r3 => (takeDigits1 r3).orElse (fun _ => takeDigits1 r2)
      | none => takeDigits1 r2

/-- Nonempty all-digit test. -/
def allDigitsNE (s : List Char) : Bool :=
  !s.isEmpty && s.all Char.isDigit

/-- re.match(r"^[\d]+$", s): digits only, where $ also matches just before
a single trailing newline. -/
def bareMatch (s : List Char) : Bool :=
  allDigitsNE s ||
    (match s.getLast? with
     | some c => (c == Char.ofNat 10) && allDigitsNE s.dropLast
     | none => false)

/-- gbpub.py lines 180-188: a bare digit match keeps the argument itself as
the thread number; otherwise the URL pattern must match and its captured
group is the thread number; otherwise ValueError (none). -/
def parse_thread_ref (s : List Char) : Option (List Char) :=
  if bareMatch s then some s else urlMatch s

theorem allDigitsNE_cons_nondigit (c : Char) (rest : List Char)
    (hc : c.isDigit = false) : allDigitsNE (c :: rest) = false := by
  simp [allDigitsNE, hc]

theorem bareMatch_cons_nondigit (c : Char) (rest : List Char)
    (hc : c.isDigit = false) : bareMatch (c :: rest) = false := by
  unfold bareMatch
  rw [allDigitsNE_cons_nondigit c rest hc]
  cases hl : (c :: rest).getLast? with
  | none => rfl
  | some lc =>
    cases rest with
    | nil => simp [allDigitsNE]
    | cons r rs =>
      have hdl : (c :: r :: rs).dropLast = c :: (r :: rs).dropLast := rfl
      rw [hdl, allDigitsNE_cons_nondigit c _ hc]
      simp

theorem takeWhile_eq_self_of_all (p : Char → Bool) (l : List Char)
    (h : l.all p = true) : l.takeWhile p = l := by
  induction l with
  | nil => rfl
  | cons c cs ih =>
    rw [List.all_cons, Bool.and_eq_true] at h
    simp [List.takeWhile_cons, h.1, ih h.2]

theorem takeDigits1_all (id : List Char) (h1 : id ≠ [])
    (h2 : id.all Char.isDigit = true) : takeDigits1 id = some id := by
  unfold takeDigits1
  rw [takeWhile_eq_self_of_all _ _ h2]
  simp [h1]

theorem bareMatch_all_digits (id : List Char) (h1 : id ≠ [])
    (h2 : id.all Char.isDigit = true) : bareMatch id = true := by
  unfold bareMatch allDigitsNE
  simp [h1, h2]

theorem urlMatch_show (id : List Char) (h1 : id ≠ [])
    (h2 : id.all Char.isDigit = true) :
    urlMatch ("http://www.mspaforums.com/showthread.php?t=".toList ++ id)
      = some id := by
  have hred : urlMatch ("http://www.mspaforums.com/showthread.php?t=".toList
      ++ id) = (takeDigits1 id).orElse
        (fun _ => takeDigits1 ("t=".toList ++ id)) := rfl
  rw [hred, takeDigits1_all id h1 h2]
  rfl

theorem urlMatch_print (id : List Char) (h1 : id ≠ [])
    (h2 : id.all Char.isDigit = true) :
    urlMatch ("http://www.mspaforums.com/printthread.php?t=".toList ++ id)
      = some id := by
  have hred : urlMatch ("http://www.mspaforums.com/printthread.php?t=".toList
      ++ id) = (takeDigits1 id).orElse
        (fun _ => takeDigits1 ("t=".toList ++ id)) := rfl
  rw [hred, takeDigits1_all id h1 h2]
  rfl

/-- C8: every valid thread id is extracted identically from the
showthread URL form, the printthread URL form and the bare digit string,
and every reference that matches neither the digit regex nor the URL
regex fails with the invalid-reference error (none). -/
theorem gbpub_thread_reference (id other : List Char) (h1 : id ≠ [])
    (h2 : id.all Char.isDigit = true) (h3 : bareMatch other = false)
    (h4 : urlMatch other = none) :
    parse_thread_ref ("http://www.mspaforums.com/showthread.php?t=".toList
        ++ id) = some id
      ∧ parse_thread_ref ("http://www.mspaforums.com/printthread.php?t=".toList
        ++ id) = some id
      ∧ parse_thread_ref id = some id
      ∧ parse_thread_ref other = none := by
  refine ⟨?_, ?_, ?_, ?_⟩
  · have hcons : "http://www.mspaforums.com/showthread.php?t=".toList ++ id
        = 'h' :: ("ttp://www.mspaforums.com/showthread.php?t=".toList ++ id) :=
      rfl
    have hb : bareMatch ("http://www.mspaforums.com/showthread.php?t=".toList
        ++ id) = false := by
      rw [hcons]
      exact bareMatch_cons_nondigit 'h' _ (by decide)
    unfold parse_thread_ref
    rw [hb, urlMatch_show id h1 h2]
    rfl
  · have hcons : "http://www.mspaforums.com/printthread.php?t=".toList ++ id
        = 'h' :: ("ttp://www.mspaforums.com/printthread.php?t=".toList ++ id) :=
      rfl
    have hb : bareMatch ("http://www.mspaforums.com/printthread.php?t=".toList
        ++ id) = false := by
      rw [hcons]
      exact bareMatch_cons_nondigit 'h' _ (by decide)
    unfold parse_thread_ref
    rw [hb, urlMatch_print id h1 h2]
    rfl
  · unfold parse_thread_ref
    rw [bareMatch_all_digits id h1 h2]
    rfl
  · unfold parse_thread_ref
    rw [h3, h4]
    rfl

/-- C8 witness: thread id 123 in all three reference forms, and one
malformed reference. -/
theorem gbpub_thread_reference_witness :
    parse_thread_ref ("http://www.mspaforums.com/showthread.php?t=123".toList)
        = some ("123".toList)
      ∧ parse_thread_ref
          ("http://www.mspaforums.com/printthread.php?t=123".toList)
        = some ("123".toList)
      ∧ parse_thread_ref ("123".toList) = some ("123".toList)
      ∧ parse_thread_ref ("not a thread".toList) = none := by
  have h := gbpub_thread_reference ("123".toList) ("not a thread".toList)
    (by decide) (by decide) (by decide) (by decide)
  exact ⟨h.1, h.2.1, h.2.2.1, h.2.2.2⟩

/-! ## C9 — Thread.get_post_content (gbpub.py lines 123-148)

The method serializes the post content subtree, replaces the markup of
the preserved tags b and i by the textual placeholders ~~~~~b~~~~~,
~~~~~/b~~~~~, ~~~~~i~~~~~ and ~~~~~/i~~~~~ (Python str.replace, leftmost
non-overlapping), re-parses and extracts plain text (which drops every
remaining tag and keeps text and placeholders), and finally replaces the
placeholders back by literal <b>, </b>, <i>, </i> markers, in that order.

The subtree is modelled as a stream of tag-open, tag-close and text
tokens (tags are attribute-free, so a b tag serializes exactly as <b>;
text serializes escaped, so markup inside a text node is never hit by the
string replacement and round-trips unchanged through serialization and
text extraction). Phase one plus text extraction then maps open and close
tokens of b and i to their placeholders, keeps text, and drops all other
tags; phase two is four successive leftmost replaceAll passes on the
resulting character list. -/

/-- A serialized markup token of the post content subtree. -/
inductive Tok where
  | tagOpen (name : List Char)
  | tagClose (name : List Char)
  | text (t : List Char)

/-- The four preserved-tag markers of gbpub.py: open and close of b and
i. -/
inductive Marker where
  | bO
  | bC
  | iO
  | iC
deriving DecidableEq

/-- A run of n tilde characters. -/
def tRun (n : Nat) : List Char := List.replicate n '~'

/-- The distinguishing middle part of each placeholder. -/
def Marker.mid : Marker → List Char
  | .bO => ['b']
  | .bC => ['/', 'b']
  | .iO => ['i']
  | .iC => ['/', 'i']

/-- A placeholder: five tildes, the middle part, five tildes. -/
def phOf (mid : List Char) : List Char := tRun 5 ++ mid ++ tRun 5

/-- The placeholder text of a marker, e.g. ~~~~~b~~~~~ for open b. -/
def Marker.ph (m : Marker) : List Char := phOf m.mid

/-- The literal marker written back by phase two. -/
def Marker.tag : Marker → List Char
  | .bO => "<b>".toList
  | .bC => "</b>".toList
  | .iO => "<i>".toList
  | .iC => "</i>".toList

/-- Position of each marker in the fixed replacement order of
gbpub.py lines 144-147. -/
def Marker.idx : Marker → Nat
  | .bO => 0
  | .bC => 1
  | .iO => 2
  | .iC => 3

/-- Phase one and text extraction: b and i markup becomes placeholder
text, other markup is dropped by get_text, text is kept. -/
def phase1Flatten : List Tok → List Char
  | [] => []
  | .tagOpen n :: rest =>
    (if n = "b".toList then Marker.bO.ph
     else if n = "i".toList then Marker.iO.ph else []) ++ phase1Flatten rest
  | .tagClose n :: rest =>
    (if n = "b".toList then Marker.bC.ph
     else if n = "i".toList then Marker.iC.ph else []) ++ phase1Flatten rest
  | .text t :: rest => t ++ phase1Flatten rest

/-- The scanner of Python str.replace: in skip mode (first argument
positive) the remaining characters of a replaced occurrence are consumed
without output; at skip zero, a leftmost pattern match emits the
replacement and enters skip mode for the rest of the occurrence, and a
non-match copies one character. -/
def raGo (p r : List Char) : Nat → List Char → List Char
  | _, [] => []
  | n + 1, _ :: s => raGo p r n s
  | 0, c :: s =>
    if isPrefixL p (c :: s) then r ++ raGo p r (p.length - 1) s
    else c :: raGo p r 0 s

/-- Python str.replace(p, r): replace every leftmost non-overlapping
occurrence. -/
def replaceAll (p r s : List Char) : List Char := raGo p r 0 s

/-- gbpub.py lines 136-148: phase one, flatten, then the four phase-two
replacement passes in source order. -/
def gbpub_get_post_content (doc : List Tok) : List Char :=
  replaceAll Marker.iC.ph Marker.iC.tag
    (replaceAll Marker.iO.ph Marker.iO.tag
      (replaceAll Marker.bC.ph Marker.bC.tag
        (replaceAll Marker.bO.ph Marker.bO.tag (phase1Flatten doc))))

/-- The output the claim describes: preserved-tag markers survive as
literal markup, text survives unchanged, all other markup is stripped. -/
def intendedText : List Tok → List Char
  | [] => []
  | .tagOpen n :: rest =>
    (if n = "b".toList then "<b>".toList
     else if n = "i".toList then "<i>".toList else []) ++ intendedText rest
  | .tagClose n :: rest =>
    (if n = "b".toList then "</b>".toList
     else if n = "i".toList then "</i>".toList else []) ++ intendedText rest
  | .text t :: rest => t ++ intendedText rest

/-- The italic element whose inner text is the single character b. -/
def ceDoc : List Tok :=
  [.tagOpen "i".toList, .text "b".toList, .tagClose "i".toList]

/-- C9 counterexample: on the subtree <i>b</i>, the flattened placeholder
text ~~~~~i~~~~~b~~~~~/i~~~~~ contains a spurious occurrence of the b
placeholder (the trailing tildes of the open-i placeholder, the text b,
and the leading tildes of the close-i placeholder), so the first phase-two
pass corrupts the text: the italic markers do not survive and a spurious
bold marker appears, refuting the claimed preservation for this input. -/
theorem gbpub_preserve_tags_cex :
    gbpub_get_post_content ceDoc = "~~~~~i<b>/i~~~~~".toList
      ∧ containsSub "<i>".toList (gbpub_get_post_content ceDoc) = false
      ∧ intendedText ceDoc = "<i>b</i>".toList := by
  refine ⟨by decide, by decide, by decide⟩

/-! ### Structured view of the flattened text

The flattened placeholder text decomposes into pieces: marker occurrences
and maximal text segments. Phase two rewrites placeholder pieces to tag
text one marker kind per pass; the lemmas below show each pass touches
exactly its own placeholder pieces, provided no text segment manufactures
a spurious placeholder (the collision the counterexample exhibits). -/

/-- A piece of the flattened text: a marker or a maximal text segment. -/
inductive Piece where
  | mark (m : Marker)
  | raw (t : List Char)

/-- Rendering of one piece at pass k: markers of the passes already run
render as literal tags, later ones still as placeholders. -/
def renderP (k : Nat) : Piece → List Char
  | .mark m => if m.idx < k then m.tag else m.ph
  | .raw t => t

def renderL (k : Nat) : List Piece → List Char
  | [] => []
  | p :: ps => renderP k p ++ renderL k ps

/-- Prepend text to a piece list, merging into a leading text segment so
segments stay maximal. -/
def pushRaw (t : List Char) : List Piece → List Piece
  | .raw t2 :: ps => .raw (t ++ t2) :: ps
  | ps => .raw t :: ps

/-- The piece structure of phase one plus text extraction: preserved-tag
tokens become markers, other tags vanish, text merges into maximal
segments. -/
def toPieces : List Tok → List Piece
  | [] => []
  | .tagOpen n :: rest =>
    if n = "b".toList then .mark .bO :: toPieces rest
    else if n = "i".toList then .mark .iO :: toPieces rest
    else toPieces rest
  | .tagClose n :: rest =>
    if n = "b".toList then .mark .bC :: toPieces rest
    else if n = "i".toList then .mark .iC :: toPieces rest
    else toPieces rest
  | .text t :: rest => pushRaw t (toPieces rest)

/-- A harmless text segment: nonempty, tilde-free, and not one of the
four placeholder middles b, /b, i, /i. -/
def rawOkB (t : List Char) : Bool :=
  !t.isEmpty && t.all (fun c => c != '~')
    && !(t == ['b']) && !(t == ['/', 'b'])
    && !(t == ['i']) && !(t == ['/', 'i'])

/-- All text segments harmless and maximal (no two adjacent). -/
def piecesOkB : List Piece → Bool
  | [] => true
  | .mark _ :: ps => piecesOkB ps
  | [.raw t] => rawOkB t
  | .raw t :: .mark m :: ps => rawOkB t && piecesOkB (.mark m :: ps)
  | .raw _ :: .raw _ :: _ => false

/-- The collision-freedom hypothesis of the amended claim, stated on the
content subtree. -/
def docOkB (doc : List Tok) : Bool := piecesOkB (toPieces doc)

/-! ### Facts about the four markers -/

theorem mid_chars (m : Marker) : ∀ c ∈ m.mid, c ≠ '~' ∧ c ≠ '<' := by
  cases m <;> decide

theorem mid_ne_nil (m : Marker) : m.mid ≠ [] := by
  cases m <;> decide

theorem mid_mem4 (m : Marker) :
    m.mid = ['b'] ∨ m.mid = ['/', 'b'] ∨ m.mid = ['i'] ∨ m.mid = ['/', 'i'] := by
  cases m <;> simp [Marker.mid]

theorem mid_inj (a b : Marker) (h : a.mid = b.mid) : a = b := by
  cases a <;> cases b <;> simp_all [Marker.mid]

theorem idx_inj (a b : Marker) (h : a.idx = b.idx) : a = b := by
  cases a <;> cases b <;> simp_all [Marker.idx]

theorem tag_tilde_free (m : Marker) : ∀ c ∈ m.tag, c ≠ '~' := by
  cases m <;> decide

theorem tag_starts_lt (m : Marker) : ∃ w, m.tag = '<' :: w := by
  cases m <;> exact ⟨_, rfl⟩

theorem ph_cons (m : Marker) :
    m.ph = '~' :: (tRun 4 ++ (m.mid ++ tRun 5)) := rfl

theorem phOf_assoc (mid : List Char) :
    phOf mid = tRun 5 ++ (mid ++ tRun 5) := rfl

/-! ### Scanner lemmas -/

theorem tRun_succ (n : Nat) : tRun (n + 1) = '~' :: tRun n := rfl

theorem tRun_zero : tRun 0 = [] := rfl

theorem isPrefixL_cons_cons (a b : Char) (as bs : List Char) :
    isPrefixL (a :: as) (b :: bs) = ((a == b) && isPrefixL as bs) := rfl

theorem isPrefixL_self_append (p z : List Char) :
    isPrefixL p (p ++ z) = true := by
  induction p with
  | nil => rfl
  | cons c cs ih =>
    rw [List.cons_append, isPrefixL_cons_cons, ih]
    simp

theorem isPrefixL_head_ne (a b : Char) (as bs : List Char) (h : ¬ a = b) :
    isPrefixL (a :: as) (b :: bs) = false := by
  rw [isPrefixL_cons_cons, beq_eq_false_iff_ne.mpr h]
  simp

theorem raGo_nil (p r : List Char) (n : Nat) : raGo p r n [] = [] := by
  cases n <;> rfl

theorem raGo_skip (p r : List Char) : ∀ (n : Nat) (s : List Char),
    raGo p r n s = raGo p r 0 (s.drop n) := by
  intro n
  induction n with
  | zero => intro s; simp
  | succ n ih =>
    intro s
    cases s with
    | nil => simp [raGo_nil]
    | cons c s2 =>
      have h1 : raGo p r (n + 1) (c :: s2) = raGo p r n s2 := rfl
      rw [h1, ih s2]
      rfl

theorem raGo_front (p r z : List Char) (hp : p ≠ []) :
    raGo p r 0 (p ++ z) = r ++ raGo p r 0 z := by
  cases p with
  | nil => exact absurd rfl hp
  | cons c p2 =>
    have hpre : isPrefixL (c :: p2) (c :: (p2 ++ z)) = true := by
      rw [isPrefixL_cons_cons, isPrefixL_self_append]
      simp
    show raGo (c :: p2) r 0 (c :: (p2 ++ z)) = _
    rw [raGo, hpre]
    simp only [if_true]
    rw [raGo_skip]
    simp [List.drop_left]

theorem raGo_step_no (p r : List Char) (c : Char) (s : List Char)
    (h : isPrefixL p (c :: s) = false) :
    raGo p r 0 (c :: s) = c :: raGo p r 0 s := by
  rw [raGo, h]
  simp

theorem raGo_walk_free (p2 r : List Char) : ∀ (t z : List Char),
    (∀ c ∈ t, c ≠ '~') →
    raGo ('~' :: p2) r 0 (t ++ z) = t ++ raGo ('~' :: p2) r 0 z := by
  intro t
  induction t with
  | nil => intro z _; simp
  | cons c t2 ih =>
    intro z ht
    have hc : c ≠ '~' := ht c (List.mem_cons_self c t2)
    have hpre : isPrefixL ('~' :: p2) (c :: (t2 ++ z)) = false :=
      isPrefixL_head_ne _ _ _ _ (fun h => hc h.symm)
    rw [List.cons_append, raGo_step_no _ _ _ _ hpre,
      ih z (fun c2 hm => ht c2 (List.mem_cons_of_mem _ hm))]
    rfl

theorem isPrefixL_peel (u z : List Char) : ∀ (m i : Nat), m ≤ i →
    isPrefixL (tRun i ++ u) (tRun m ++ z)
      = isPrefixL (tRun (i - m) ++ u) z := by
  intro m
  induction m with
  | zero => intro i _; simp [tRun_zero]
  | succ m2 ih =>
    intro i hi
    cases i with
    | zero => omega
    | succ i2 =>
      have harith : i2 + 1 - (m2 + 1) = i2 - m2 := by omega
      rw [harith, tRun_succ, tRun_succ, List.cons_append, List.cons_append,
        isPrefixL_cons_cons]
      simp only [beq_self_eq_true, Bool.true_and]
      exact ih i2 (by omega)

theorem isPrefixL_run_gt (u v : List Char) (c : Char) (hc : c ≠ '~') :
    ∀ (j i : Nat), j < i →
    isPrefixL (tRun i ++ u) (tRun j ++ c :: v) = false := by
  intro j
  induction j with
  | zero =>
    intro i hi
    cases i with
    | zero => omega
    | succ i2 =>
      rw [tRun_zero, List.nil_append, tRun_succ, List.cons_append]
      exact isPrefixL_head_ne _ _ _ _ (fun h => hc h.symm)
  | succ j2 ih =>
    intro i hi
    cases i with
    | zero => omega
    | succ i2 =>
      rw [tRun_succ, tRun_succ, List.cons_append, List.cons_append,
        isPrefixL_cons_cons]
      simp only [beq_self_eq_true, Bool.true_and]
      exact ih i2 (by omega)

theorem isPrefixL_run_lt (u v : List Char) (c : Char) (hc : c ≠ '~') :
    ∀ (j i : Nat), j < i →
    isPrefixL (tRun j ++ c :: u) (tRun i ++ v) = false := by
  intro j
  induction j with
  | zero =>
    intro i hi
    cases i with
    | zero => omega
    | succ i2 =>
      rw [tRun_zero, List.nil_append, tRun_succ, List.cons_append]
      exact isPrefixL_head_ne _ _ _ _ hc
  | succ j2 ih =>
    intro i hi
    cases i with
    | zero => omega
    | succ i2 =>
      rw [tRun_succ, tRun_succ, List.cons_append, List.cons_append,
        isPrefixL_cons_cons]
      simp only [beq_self_eq_true, Bool.true_and]
      exact ih i2 (by omega)

theorem isPrefixL_mid_ne (w v : List Char) :
    ∀ (a b : List Char), (∀ c ∈ a, c ≠ '~') → (∀ c ∈ b, c ≠ '~') → a ≠ b →
    isPrefixL (a ++ '~' :: w) (b ++ '~' :: v) = false := by
  intro a
  induction a with
  | nil =>
    intro b _ hb hne
    cases b with
    | nil => exact absurd rfl hne
    | cons d b2 =>
      have hd : d ≠ '~' := hb d (List.mem_cons_self d b2)
      rw [List.nil_append, List.cons_append]
      exact isPrefixL_head_ne _ _ _ _ (fun h => hd h.symm)
  | cons e a2 ih =>
    intro b ha hb hne
    cases b with
    | nil =>
      have he : e ≠ '~' := ha e (List.mem_cons_self e a2)
      rw [List.cons_append, List.nil_append]
      exact isPrefixL_head_ne _ _ _ _ he
    | cons d b2 =>
      by_cases hed : e = d
      · subst hed
        rw [List.cons_append, List.cons_append, isPrefixL_cons_cons]
        simp only [beq_self_eq_true, Bool.true_and]
        exact ih b2 (fun c hm => ha c (List.mem_cons_of_mem _ hm))
          (fun c hm => hb c (List.mem_cons_of_mem _ hm))
          (fun h => hne (by rw [h]))
      · rw [List.cons_append, List.cons_append]
        exact isPrefixL_head_ne _ _ _ _ hed

/-- Whether a character list is empty or starts with a tilde or an
opening angle bracket — the only ways a rendered piece list can begin. -/
def startsSafe : List Char → Prop
  | [] => True
  | c :: _ => c = '~' ∨ c = '<'

theorem isPrefixL_mid_text (w : List Char) :
    ∀ (a t z : List Char), a ≠ [] → (∀ c ∈ a, c ≠ '~' ∧ c ≠ '<') →
    t ≠ [] → (∀ c ∈ t, c ≠ '~') → t ≠ a → startsSafe z →
    isPrefixL (a ++ '~' :: w) (t ++ z) = false := by
  intro a
  induction a with
  | nil => intro t z ha _ _ _ _ _; exact absurd rfl ha
  | cons d a2 ih =>
    intro t z _ haf ht htf hne hz
    cases t with
    | nil => exact absurd rfl ht
    | cons c t2 =>
      by_cases hdc : d = c
      · subst hdc
        rw [List.cons_append, List.cons_append, isPrefixL_cons_cons]
        simp only [beq_self_eq_true, Bool.true_and]
        cases a2 with
        | nil =>
          cases t2 with
          | nil => exact absurd rfl hne
          | cons c2 t3 =>
            have hc2 : c2 ≠ '~' := htf c2 (by simp)
            rw [List.nil_append, List.cons_append]
            exact isPrefixL_head_ne _ _ _ _ (fun h => hc2 h.symm)
        | cons d2 a3 =>
          cases t2 with
          | nil =>
            have hd2 : d2 ≠ '~' ∧ d2 ≠ '<' := haf d2 (by simp)
            rw [List.nil_append]
            cases z with
            | nil => rw [List.cons_append]; rfl
            | cons zc zr =>
              have hzc : zc = '~' ∨ zc = '<' := hz
              rw [List.cons_append]
              refine isPrefixL_head_ne _ _ _ _ ?_
              cases hzc with
              | inl h => rw [h]; exact hd2.1
              | inr h => rw [h]; exact hd2.2
          | cons c2 t3 =>
            exact ih (c2 :: t3) z (by simp)
              (fun c3 hm => haf c3 (List.mem_cons_of_mem _ hm))
              (by simp)
              (fun c3 hm => htf c3 (List.mem_cons_of_mem _ hm))
              (fun h => hne (by rw [h]))
              hz
      · rw [List.cons_append, List.cons_append]
        exact isPrefixL_head_ne _ _ _ _ hdc

/-- No suffix of the placeholder of midP — a partial trailing run of one
to five tildes, the middle, and the full trailing run — occurs at the
start of z, so an occurrence of the placeholder can never leak out of the
piece it starts in. -/
def noMergeP (midP z : List Char) : Prop :=
  ∀ m : Nat, 1 ≤ m → m ≤ 5 →
    isPrefixL (tRun (5 - m) ++ (midP ++ tRun 5)) z = false

theorem ph_def (m : Marker) : m.ph = phOf m.mid := rfl

theorem mid_head (m : Marker) : ∃ pc p2, m.mid = pc :: p2 := by
  rcases mid_mem4 m with h | h | h | h <;> rw [h] <;> exact ⟨_, _, rfl⟩

theorem raGo_walk_trail (midP r z : List Char) (hnm : noMergeP midP z) :
    ∀ m : Nat, m ≤ 5 →
    raGo (phOf midP) r 0 (tRun m ++ z)
      = tRun m ++ raGo (phOf midP) r 0 z := by
  intro m
  induction m with
  | zero => intro _; simp [tRun_zero]
  | succ m2 ih =>
    intro hm
    have hpre : isPrefixL (phOf midP) (tRun (m2 + 1) ++ z) = false := by
      rw [phOf_assoc, isPrefixL_peel (midP ++ tRun 5) z (m2 + 1) 5 hm]
      exact hnm (m2 + 1) (by omega) hm
    have hstep : tRun (m2 + 1) ++ z = '~' :: (tRun m2 ++ z) := rfl
    rw [hstep] at hpre
    rw [hstep, raGo_step_no _ _ _ _ hpre, ih (by omega)]
    rfl

theorem raGo_walk_lead (midP midQ r z2 : List Char)
    (hPf : ∀ c ∈ midP, c ≠ '~') (hQ1 : midQ ≠ [])
    (hQf : ∀ c ∈ midQ, c ≠ '~') (hne : midP ≠ midQ) :
    ∀ j : Nat, j ≤ 5 →
    raGo (phOf midP) r 0 (tRun j ++ (midQ ++ (tRun 5 ++ z2)))
      = tRun j ++ raGo (phOf midP) r 0 (midQ ++ (tRun 5 ++ z2)) := by
  intro j
  induction j with
  | zero => intro _; simp [tRun_zero]
  | succ j2 ih =>
    intro hj
    have hpre : isPrefixL (phOf midP)
        (tRun (j2 + 1) ++ (midQ ++ (tRun 5 ++ z2))) = false := by
      by_cases hj5 : j2 + 1 = 5
      · rw [hj5, phOf_assoc,
          isPrefixL_peel (midP ++ tRun 5) _ 5 5 (Nat.le_refl 5)]
        simp only [Nat.sub_self, tRun_zero, List.nil_append]
        have e1 : midP ++ tRun 5 = midP ++ '~' :: tRun 4 := rfl
        have e2 : midQ ++ (tRun 5 ++ z2) = midQ ++ '~' :: (tRun 4 ++ z2) := rfl
        rw [e1, e2]
        exact isPrefixL_mid_ne _ _ midP midQ hPf hQf hne
      · obtain ⟨qc, q2, rfl⟩ : ∃ qc q2, midQ = qc :: q2 := by
          cases midQ with
          | nil => exact absurd rfl hQ1
          | cons a b => exact ⟨a, b, rfl⟩
        have hqc : qc ≠ '~' := hQf qc (List.mem_cons_self qc q2)
        have e3 : (qc :: q2) ++ (tRun 5 ++ z2)
            = qc :: (q2 ++ (tRun 5 ++ z2)) := rfl
        rw [phOf_assoc, e3]
        exact isPrefixL_run_gt (midP ++ tRun 5) _ qc hqc (j2 + 1) 5 (by omega)
    have hstep : tRun (j2 + 1) ++ (midQ ++ (tRun 5 ++ z2))
        = '~' :: (tRun j2 ++ (midQ ++ (tRun 5 ++ z2))) := rfl
    rw [hstep] at hpre
    rw [hstep, raGo_step_no _ _ _ _ hpre, ih (by omega)]
    rfl

theorem raGo_walk_ph (midP midQ r z : List Char)
    (hPf : ∀ c ∈ midP, c ≠ '~') (hQ1 : midQ ≠ [])
    (hQf : ∀ c ∈ midQ, c ≠ '~') (hne : midP ≠ midQ)
    (hnm : noMergeP midP z) :
    raGo (phOf midP) r 0 (phOf midQ ++ z)
      = phOf midQ ++ raGo (phOf midP) r 0 z := by
  have hassoc : phOf midQ ++ z = tRun 5 ++ (midQ ++ (tRun 5 ++ z)) := by
    rw [phOf_assoc]
    simp [List.append_assoc]
  rw [hassoc, raGo_walk_lead midP midQ r z hPf hQ1 hQf hne 5 (Nat.le_refl 5)]
  have hph : phOf midP = '~' :: (tRun 4 ++ (midP ++ tRun 5)) := rfl
  rw [hph, raGo_walk_free _ _ midQ _ hQf, ← hph,
    raGo_walk_trail midP r z hnm 5 (Nat.le_refl 5)]
  rw [phOf_assoc midQ]
  simp [List.append_assoc]

theorem piecesOkB_mark (m : Marker) (ps : List Piece)
    (h : piecesOkB (.mark m :: ps) = true) : piecesOkB ps = true := h

theorem piecesOkB_raw (t : List Char) (ps : List Piece)
    (h : piecesOkB (.raw t :: ps) = true) :
    rawOkB t = true ∧ piecesOkB ps = true
      ∧ (ps = [] ∨ ∃ m ps2, ps = .mark m :: ps2) := by
  cases ps with
  | nil => exact ⟨h, rfl, Or.inl rfl⟩
  | cons p2 ps2 =>
    cases p2 with
    | mark m =>
      have h2 : (rawOkB t && piecesOkB (.mark m :: ps2)) = true := h
      rw [Bool.and_eq_true] at h2
      rcases h2 with ⟨ha, hb⟩
      exact ⟨ha, hb, Or.inr ⟨m, ps2, rfl⟩⟩
    | raw t2 =>
      have hfalse : piecesOkB (.raw t :: .raw t2 :: ps2) = false := rfl
      rw [hfalse] at h
      exact absurd h (by simp)

theorem rawOkB_spec (t : List Char) (h : rawOkB t = true) :
    t ≠ [] ∧ (∀ c ∈ t, c ≠ '~') ∧ t ≠ ['b'] ∧ t ≠ ['/', 'b']
      ∧ t ≠ ['i'] ∧ t ≠ ['/', 'i'] := by
  simp only [rawOkB, Bool.and_eq_true, Bool.not_eq_true',
    List.all_eq_true, bne_iff_ne, ne_eq, beq_eq_false_iff_ne] at h
  obtain ⟨⟨⟨⟨⟨h1, h2⟩, h3⟩, h4⟩, h5⟩, h6⟩ := h
  refine ⟨?_, fun c hc => h2 c hc, h3, h4, h5, h6⟩
  intro hnil
  rw [hnil] at h1
  simp at h1

theorem startsSafe_renderL (k : Nat) (ps : List Piece)
    (h : ps = [] ∨ ∃ m ps2, ps = .mark m :: ps2) :
    startsSafe (renderL k ps) := by
  rcases h with rfl | ⟨m, ps2, rfl⟩
  · exact trivial
  · show startsSafe (renderP k (.mark m) ++ renderL k ps2)
    unfold renderP
    by_cases hd : m.idx < k
    · simp only [hd, if_true]
      obtain ⟨w, hw⟩ := tag_starts_lt m
      rw [hw, List.cons_append]
      exact Or.inr rfl
    · simp only [hd, if_false]
      rw [ph_cons m, List.cons_append]
      exact Or.inl rfl

theorem noMerge_renderL (mk : Marker) (k : Nat) :
    ∀ (rest : List Piece), piecesOkB rest = true →
    noMergeP mk.mid (renderL k rest) := by
  intro rest hOk m hm1 hm5
  cases rest with
  | nil =>
    show isPrefixL (tRun (5 - m) ++ (mk.mid ++ tRun 5)) [] = false
    rcases Nat.lt_or_ge m 5 with h5 | h5
    · obtain ⟨j, hj⟩ : ∃ j, 5 - m = j + 1 := ⟨5 - m - 1, by omega⟩
      rw [hj, tRun_succ, List.cons_append]
      rfl
    · have hm : m = 5 := by omega
      subst hm
      simp only [Nat.sub_self, tRun_zero, List.nil_append]
      obtain ⟨pc, p2, hp⟩ := mid_head mk
      rw [hp, List.cons_append]
      rfl
  | cons piece rest2 =>
    cases piece with
    | raw t =>
      obtain ⟨hraw, hOk2, hshape⟩ := piecesOkB_raw t rest2 hOk
      obtain ⟨ht1, htf, hb1, hb2, hb3, hb4⟩ := rawOkB_spec t hraw
      obtain ⟨tc, t2, rfl⟩ : ∃ tc t2, t = tc :: t2 := by
        cases t with
        | nil => exact absurd rfl ht1
        | cons a b => exact ⟨a, b, rfl⟩
      show isPrefixL (tRun (5 - m) ++ (mk.mid ++ tRun 5))
          ((tc :: t2) ++ renderL k rest2) = false
      rcases Nat.lt_or_ge m 5 with h5 | h5
      · obtain ⟨j, hj⟩ : ∃ j, 5 - m = j + 1 := ⟨5 - m - 1, by omega⟩
        have htc : tc ≠ '~' := htf tc (List.mem_cons_self tc t2)
        rw [hj, tRun_succ, List.cons_append, List.cons_append]
        exact isPrefixL_head_ne _ _ _ _ (fun h => htc h.symm)
      · have hm : m = 5 := by omega
        subst hm
        simp only [Nat.sub_self, tRun_zero, List.nil_append]
        have hmid : mk.mid ++ tRun 5 = mk.mid ++ '~' :: tRun 4 := rfl
        rw [hmid]
        refine isPrefixL_mid_text (tRun 4) mk.mid (tc :: t2) (renderL k rest2)
          (mid_ne_nil mk) (mid_chars mk) (by simp) htf ?_
          (startsSafe_renderL k rest2 hshape)
        rcases mid_mem4 mk with h | h | h | h <;> rw [h]
        · exact hb1
        · exact hb2
        · exact hb3
        · exact hb4
    | mark mq =>
      have hOk2 : piecesOkB rest2 = true := piecesOkB_mark mq rest2 hOk
      show isPrefixL (tRun (5 - m) ++ (mk.mid ++ tRun 5))
          (renderP k (.mark mq) ++ renderL k rest2) = false
      unfold renderP
      by_cases hd : mq.idx < k
      · simp only [hd, if_true]
        obtain ⟨w, hw⟩ := tag_starts_lt mq
        rw [hw, List.cons_append]
        rcases Nat.lt_or_ge m 5 with h5 | h5
        · obtain ⟨j, hj⟩ : ∃ j, 5 - m = j + 1 := ⟨5 - m - 1, by omega⟩
          rw [hj, tRun_succ, List.cons_append]
          exact isPrefixL_head_ne _ _ _ _ (by decide)
        · have hm : m = 5 := by omega
          subst hm
          simp only [Nat.sub_self, tRun_zero, List.nil_append]
          obtain ⟨pc, p2, hp⟩ := mid_head mk
          have hpc : pc ≠ '<' := (mid_chars mk pc (by rw [hp]; simp)).2
          rw [hp, List.cons_append]
          exact isPrefixL_head_ne _ _ _ _ hpc
      · simp only [hd, if_false]
        have hph : Marker.ph mq ++ renderL k rest2
            = tRun 5 ++ (mq.mid ++ (tRun 5 ++ renderL k rest2)) := by
          rw [ph_def, phOf_assoc]
          simp [List.append_assoc]
        rw [hph]
        obtain ⟨pc, p2, hp⟩ := mid_head mk
        have hpc : pc ≠ '~' := (mid_chars mk pc (by rw [hp]; simp)).1
        have hshape2 : tRun (5 - m) ++ (mk.mid ++ tRun 5)
            = tRun (5 - m) ++ (pc :: (p2 ++ tRun 5)) := by
          rw [hp]
          rfl
        rw [hshape2]
        exact isPrefixL_run_lt (p2 ++ tRun 5) _ pc hpc (5 - m) 5 (by omega)

/-- One phase-two pass: replacing the placeholder of one marker by its tag
in the pass-k rendering rewrites exactly the pieces of that marker, when
the text segments are harmless and maximal. -/
theorem pass_step (mk : Marker) :
    ∀ P : List Piece, piecesOkB P = true →
    raGo mk.ph mk.tag 0 (renderL mk.idx P) = renderL (mk.idx + 1) P := by
  intro P
  induction P with
  | nil => intro _; rfl
  | cons piece rest ih =>
    intro hP
    cases piece with
    | mark mq =>
      have hOk2 : piecesOkB rest = true := piecesOkB_mark mq rest hP
      show raGo mk.ph mk.tag 0
          (renderP mk.idx (.mark mq) ++ renderL mk.idx rest)
        = renderP (mk.idx + 1) (.mark mq) ++ renderL (mk.idx + 1) rest
      by_cases hmq : mq = mk
      · subst hmq
        have h1 : renderP mq.idx (.mark mq) = mq.ph := by
          simp [renderP]
        have h2 : renderP (mq.idx + 1) (.mark mq) = mq.tag := by
          simp [renderP]
        have hpne : mq.ph ≠ [] := by
          rw [ph_cons]
          simp
        rw [h1, h2, raGo_front _ _ _ hpne, ih hOk2]
      · by_cases hd : mq.idx < mk.idx
        · have h1 : renderP mk.idx (.mark mq) = mq.tag := by
            simp [renderP, hd]
          have h2 : renderP (mk.idx + 1) (.mark mq) = mq.tag := by
            simp [renderP, Nat.lt_succ_of_lt hd]
          rw [h1, h2]
          have hphc := ph_cons mk
          rw [hphc, raGo_walk_free _ _ mq.tag _ (tag_tilde_free mq), ← hphc,
            ih hOk2]
        · have hne_idx : mq.idx ≠ mk.idx := fun h => hmq (idx_inj mq mk h)
          have hgt : ¬ mq.idx < mk.idx + 1 := by omega
          have h1 : renderP mk.idx (.mark mq) = mq.ph := by
            simp [renderP, hd]
          have h2 : renderP (mk.idx + 1) (.mark mq) = mq.ph := by
            simp [renderP, hgt]
          rw [h1, h2]
          have hnm : noMergeP mk.mid (renderL mk.idx rest) :=
            noMerge_renderL mk mk.idx rest hOk2
          have hmidne : mk.mid ≠ mq.mid :=
            fun h => hmq (mid_inj mq mk h.symm)
          rw [ph_def mk, ph_def mq,
            raGo_walk_ph mk.mid mq.mid mk.tag _
              (fun c hc => (mid_chars mk c hc).1) (mid_ne_nil mq)
              (fun c hc => (mid_chars mq c hc).1) hmidne hnm,
            ← ph_def mk]
          have hih := ih hOk2
          rw [ph_def mk] at hih ⊢
          rw [hih]
    | raw t =>
      obtain ⟨hraw, hOk2, _⟩ := piecesOkB_raw t rest hP
      obtain ⟨ht1, htf, _, _, _, _⟩ := rawOkB_spec t hraw
      show raGo mk.ph mk.tag 0 (t ++ renderL mk.idx rest)
          = t ++ renderL (mk.idx + 1) rest
      have hphc := ph_cons mk
      rw [hphc, raGo_walk_free _ _ t _ htf, ← hphc, ih hOk2]

theorem renderL_pushRaw (k : Nat) (t : List Char) (ps : List Piece) :
    renderL k (pushRaw t ps) = t ++ renderL k ps := by
  cases ps with
  | nil => rfl
  | cons p ps2 =>
    cases p with
    | raw t2 =>
      show (t ++ t2) ++ renderL k ps2 = t ++ (t2 ++ renderL k ps2)
      simp [List.append_assoc]
    | mark m => rfl

theorem renderL0_toPieces : ∀ doc : List Tok,
    renderL 0 (toPieces doc) = phase1Flatten doc := by
  intro doc
  induction doc with
  | nil => rfl
  | cons tok rest ih =>
    cases tok with
    | text t =>
      show renderL 0 (pushRaw t (toPieces rest)) = t ++ phase1Flatten rest
      rw [renderL_pushRaw, ih]
    | tagOpen n =>
      by_cases hb : n = ['b']
      · simp [toPieces, phase1Flatten, hb, renderL, renderP, Marker.idx, ih]
      · by_cases hi : n = ['i']
        · simp [toPieces, phase1Flatten, hb, hi, renderL, renderP,
            Marker.idx, ih]
        · simp [toPieces, phase1Flatten, hb, hi, ih]
    | tagClose n =>
      by_cases hb : n = ['b']
      · simp [toPieces, phase1Flatten, hb, renderL, renderP, Marker.idx, ih]
      · by_cases hi : n = ['i']
        · simp [toPieces, phase1Flatten, hb, hi, renderL, renderP,
            Marker.idx, ih]
        · simp [toPieces, phase1Flatten, hb, hi, ih]

theorem renderL4_toPieces : ∀ doc : List Tok,
    renderL 4 (toPieces doc) = intendedText doc := by
  intro doc
  induction doc with
  | nil => rfl
  | cons tok rest ih =>
    cases tok with
    | text t =>
      show renderL 4 (pushRaw t (toPieces rest)) = t ++ intendedText rest
      rw [renderL_pushRaw, ih]
    | tagOpen n =>
      by_cases hb : n = ['b']
      · simp [toPieces, intendedText, hb, renderL, renderP, Marker.idx,
          Marker.tag, ih]
      · by_cases hi : n = ['i']
        · simp [toPieces, intendedText, hb, hi, renderL, renderP,
            Marker.idx, Marker.tag, ih]
        · simp [toPieces, intendedText, hb, hi, ih]
    | tagClose n =>
      by_cases hb : n = ['b']
      · simp [toPieces, intendedText, hb, renderL, renderP, Marker.idx,
          Marker.tag, ih]
      · by_cases hi : n = ['i']
        · simp [toPieces, intendedText, hb, hi, renderL, renderP,
            Marker.idx, Marker.tag, ih]
        · simp [toPieces, intendedText, hb, hi, ih]

theorem four_passes (P : List Piece) (h : piecesOkB P = true) :
    raGo Marker.iC.ph Marker.iC.tag 0
      (raGo Marker.iO.ph Marker.iO.tag 0
        (raGo Marker.bC.ph Marker.bC.tag 0
          (raGo Marker.bO.ph Marker.bO.tag 0 (renderL 0 P))))
      = renderL 4 P := by
  have h1 := pass_step .bO P h
  have h2 := pass_step .bC P h
  have h3 := pass_step .iO P h
  have h4 := pass_step .iC P h
  simp only [Marker.idx] at h1 h2 h3 h4
  norm_num at h1 h2 h3 h4
  rw [h1, h2, h3, h4]

/-- C9 (amended): the two-phase preservation step yields exactly the text
in which the b and i markers survive as literal markup and all other
markup is stripped, provided the content is collision-free: every maximal
text segment (with the dropped markup removed) is nonempty, contains no
tilde, and is not exactly one of b, /b, i, /i — the shapes that would
forge a spurious placeholder next to a real one, as the counterexample
<i>b</i> does. -/
theorem gbpub_preserve_tags_amended (doc : List Tok)
    (h : docOkB doc = true) :
    gbpub_get_post_content doc = intendedText doc := by
  unfold docOkB at h
  unfold gbpub_get_post_content replaceAll
  rw [← renderL0_toPieces doc, four_passes (toPieces doc) h,
    renderL4_toPieces doc]

/-- A collision-free subtree: bold and italic elements, a div that is
stripped, and ordinary text. -/
def witDoc : List Tok :=
  [.tagOpen "b".toList, .text "hello".toList, .tagClose "b".toList,
   .tagOpen "div".toList, .text "world".toList, .tagClose "div".toList,
   .tagOpen "i".toList, .text "x".toList, .tagClose "i".toList]

/-- C9 witness: the amended theorem applied to a concrete subtree. -/
theorem gbpub_preserve_tags_amended_witness :
    docOkB witDoc = true
      ∧ gbpub_get_post_content witDoc = "<b>hello</b>world<i>x</i>".toList := by
  refine ⟨by decide, ?_⟩
  rw [gbpub_preserve_tags_amended witDoc (by decide)]
  decide
